import Mathlib

/-!
Shallow embedding of the windowed nearest-neighbour itinerary engine of
`src/uniSpherical/nearNextP8bWindow.c` (functions `main`, `closeInWin`,
`closeOutWin`, `compIntsIx0`) together with the pieces of the command-line /
file-size validation of `main` that the claims mention, and the brute-force
baseline comparison loop of `src/uniSpherical/nearNextP8bBruteForce.c`.

Modelling conventions:
* A location (C `struct loc`) is `Loc`: its visitation slot `iOrd : Int`
  (the C sentinel `-1` means "unvisited") and its opaque coordinate `pt : α`.
  The `unused` padding field of the C struct carries no information and is
  dropped.
* The geodesy kernel (`nemo.h`) is an external collaborator that is not part
  of this repository; the engine only compares its proxy distances
  (`NEMO_ChordSq3`), so the distance oracle is an abstract total function
  `dsq : α → α → Int` into a linearly ordered type, carried by the store.
  The C initialisation `csqMin = NEMO_DOUBLE_HUGE` (larger than every
  genuine distance) is modelled by an `Option`-valued best-so-far
  accumulator, `none` playing the role of "still HUGE".
* C `int` indices that the program keeps in `[0, lcnCnt]` are modelled as
  `Nat`; the clamp `if (nStart < 0) nStart = 0` coincides with truncated
  natural subtraction.
* The `while` loops are modelled with an explicit fuel argument that the
  wrappers instantiate with a value strictly above the loop variant, so all
  definitions compute by `decide`/`rfl`.
* Out-of-range array reads (impossible in the executions the theorems talk
  about, undefined behaviour in C) surface as `List.getElem?` misses and are
  treated as "not an unvisited candidate".
-/

namespace NearNext

/-- C `struct loc` of `nearNextP8bWindow.c`: visitation order slot `iOrd`
(`-1` = unvisited) and the opaque `nemoPtUs8` coordinate. -/
structure Loc (α : Type) where
  iOrd : Int
  pt : α
deriving Repr, DecidableEq

/-- The in-memory location store of `nearNextP8bWindow.c`: the global array
`locs` (as a list, `lcnCnt = locs.length`) together with the external
distance oracle (`NEMO_ChordSq3` composed with `nemo_Us8ToNcs`). -/
structure Store (α : Type) where
  dsq : α → α → Int
  locs : List (Loc α)

variable {α : Type}

/-- The C test `locs[n].iOrd == -1` ("this location is unvisited");
an out-of-range index is not an unvisited candidate. -/
def unvisited? (s : Store α) (n : Nat) : Bool :=
  match s.locs[n]? with
  | some l => l.iOrd == -1
  | none => false

/-- Number of already-visited locations (the driver's loop counter `k`
always equals this). -/
def visitedCount (s : Store α) : Nat :=
  s.locs.countP (fun l => !(l.iOrd == -1))

/-- Proxy distance from the location at index `p` to the location at
index `j` (the C expression `NEMO_ChordSq3(ptNcsLast.dc, ptNcs.dc)`),
when both indices are in range. -/
def dist? (s : Store α) (p j : Nat) : Option Int :=
  match s.locs[p]?, s.locs[j]? with
  | some lp, some lj => some (s.dsq lp.pt lj.pt)
  | _, _ => none

/-- One iteration of the `for` loop body of `closeInWin`
(`nearNextP8bWindow.c:188-198`): skip visited locations, otherwise compare
the candidate's squared-chord distance with the best so far (`csq < csqMin`
strictly, so the first-seen candidate wins ties). -/
def considered (s : Store α) (pLast : α) (best : Option (Nat × Int)) (n : Nat) :
    Option (Nat × Int) :=
  match s.locs[n]? with
  | none => best
  | some l =>
    if l.iOrd == -1 then
      let csq := s.dsq pLast l.pt
      match best with
      | none => some (n, csq)
      | some (nMin, csqMin) => if csq < csqMin then some (n, csq) else some (nMin, csqMin)
    else best

/-- C `closeInWin` (`nearNextP8bWindow.c:175-201`): scan the window
`[nLast - iWin, min (nLast + iWin) lcnCnt)` for the unvisited location of
minimum proxy distance to `nLast`.  The C code reads `locs[nLast]`
unconditionally; the program only calls it with a valid pivot, and an
out-of-range pivot is modelled as "no candidate". -/
def closeInWin (s : Store α) (iWin nLast : Nat) : Option Nat :=
  match s.locs[nLast]? with
  | none => none
  | some lp =>
    let nStart := nLast - iWin
    let nEnd := min (nLast + iWin) s.locs.length
    ((List.range' nStart (nEnd - nStart)).foldl (considered s lp.pt) none).map Prod.fst

/-- The `while` loop of C `closeOutWin` (`nearNextP8bWindow.c:215-224`),
with explicit fuel: while `nLow > 0 ∨ nHigh < lcnCnt`, first test the low
boundary (only when `nLow > 0`, then decrement it), then the high boundary
(only when `nHigh < lcnCnt`, then increment it), returning the first
unvisited index encountered.  Natural subtraction makes `nLow - 1 = 0` when
`nLow = 0`, exactly as the untouched C variable. -/
def outScanF (s : Store α) : Nat → Nat → Nat → Option Nat
  | 0, _, _ => none
  | fuel + 1, nLow, nHigh =>
    if 0 < nLow ∨ nHigh < s.locs.length then
      if 0 < nLow ∧ unvisited? s nLow then some nLow
      else
        if nHigh < s.locs.length then
          if unvisited? s nHigh then some nHigh
          else outScanF s fuel (nLow - 1) (nHigh + 1)
        else outScanF s fuel (nLow - 1) nHigh
    else none

/-- C `closeOutWin` (`nearNextP8bWindow.c:207-226`): outward fallback scan
from the window boundaries `nLow = nLast - iWin`,
`nHigh = min (nLast + iWin) lcnCnt`.  The fuel `nLow + (lcnCnt - nHigh) + 1`
strictly exceeds the loop variant, so it never runs out. -/
def closeOutWin (s : Store α) (iWin nLast : Nat) : Option Nat :=
  let nLow := nLast - iWin
  let nHigh := min (nLast + iWin) s.locs.length
  outScanF s (nLow + (s.locs.length - nHigh) + 1) nLow nHigh

/-- The two-level search of the driver loop body
(`nearNextP8bWindow.c:126-128`): `closeInWin`, falling back to
`closeOutWin` when it finds nothing. -/
def nextLoc (s : Store α) (iWin nPrev : Nat) : Option Nat :=
  match closeInWin s iWin nPrev with
  | some n => some n
  | none => closeOutWin s iWin nPrev

/-- The C assignment `locs[nNext].iOrd = k` (out-of-range writes never occur
in the modelled executions and are no-ops here). -/
def setOrd (s : Store α) (n : Nat) (k : Int) : Store α :=
  match s.locs[n]? with
  | some l => { s with locs := s.locs.set n { l with iOrd := k } }
  | none => s

/-- The driver `while (k < lcnCnt)` loop of `main`
(`nearNextP8bWindow.c:124-132`), with fuel (`runDriverLog` supplies
`lcnCnt - 1`, exactly the number of iterations of a successful run).
Besides the final store it returns the log of writes `(index, order)`
performed by `locs[nNext].iOrd = k++`.  `none` models `errorExit`
("Program assertion?") and the impossible fuel exhaustion. -/
def driverAux (iWin : Nat) : Nat → Store α → Nat → Nat → Option (Store α × List (Nat × Nat))
  | 0, s, _, k => if k < s.locs.length then none else some (s, [])
  | fuel + 1, s, nPrev, k =>
    if k < s.locs.length then
      match nextLoc s iWin nPrev with
      | none => none
      | some nNext =>
        (driverAux iWin fuel (setOrd s nNext (Int.ofNat k)) nNext (k + 1)).map
          (fun r => (r.1, (nNext, k) :: r.2))
    else some (s, [])

/-- The itinerary-construction phase of `main`
(`nearNextP8bWindow.c:121-132`): `locs[0].iOrd = 0; nPrev = 0; k = 1;`
followed by the driver loop.  Returns the completed store and the full
write log (the initial write included). -/
def runDriverLog (iWin : Nat) (s : Store α) : Option (Store α × List (Nat × Nat)) :=
  (driverAux iWin (s.locs.length - 1) (setOrd s 0 0) 0 1).map
    (fun r => (r.1, (0, 0) :: r.2))

/-- The output-sequencing `qsort(locs, lcnCnt, sizeof(struct loc), compIntsIx0)`
call (`nearNextP8bWindow.c:133`): sort the store by `iOrd` ascending
(`compIntsIx0` compares the leading `int` of each struct). -/
def sortByOrd (s : Store α) : Store α :=
  { s with locs := s.locs.mergeSort (fun a b => a.iOrd ≤ b.iOrd) }

/-- One iteration of the brute-force comparison loop
(`nearNextP8bBruteForce.c:82-89`): same strict `cld < nld` comparison and
first-seen tie-break, restricted (as in the window variant's contract) to
unvisited candidates.

Modelled from the spec: the "unbounded nearest-neighbor search (reduces to
the brute-force baseline)" of §8 — the baseline's scan with the window
removed, used as the comparison point of the refinement claim. -/
def nnStep (s : Store α) (pLast : α) (best : Option (Nat × Int)) (nn : Nat) :
    Option (Nat × Int) :=
  match s.locs[nn]? with
  | none => best
  | some l =>
    if l.iOrd == -1 then
      let cld := s.dsq pLast l.pt
      match best with
      | none => some (nn, cld)
      | some (nx, nld) => if cld < nld then some (nn, cld) else some (nx, nld)
    else best

/-- Modelled from the spec (§8, "Monotonic degenerate case"): the unbounded
nearest-neighbour search over all `N` indices, with the brute-force
baseline's strict-less-than comparison and first-seen tie-break. -/
def unboundedNN (s : Store α) (nLast : Nat) : Option Nat :=
  match s.locs[nLast]? with
  | none => none
  | some lp =>
    ((List.range s.locs.length).foldl (nnStep s lp.pt) none).map Prod.fst

/-- Outward-test priority key of the fallback scan, relative to window
boundaries `nLow`, `nHigh`: the alternation tests the low side at outward
offset `t` just before the high side at offset `t`, so the `2*offset` /
`2*offset + 1` encoding lists the boundary indices in exactly the order the
loop examines them. -/
def outKey (nLow nHigh j : Nat) : Nat :=
  if j ≤ nLow then 2 * (nLow - j) else 2 * (j - nHigh) + 1

/-- The indices the fallback loop can ever examine, relative to window
boundaries `nLow`, `nHigh` in a store of `len` locations: the low side
`[1, nLow]` (index 0 is excluded by the `nLow > 0` guard) and the high side
`[nHigh, len)`. -/
def outReach (len nLow nHigh j : Nat) : Prop :=
  (1 ≤ j ∧ j ≤ nLow) ∨ (nHigh ≤ j ∧ j < len)

instance (len nLow nHigh j : Nat) : Decidable (outReach len nLow nHigh j) := by
  unfold outReach; infer_instance

/-- Characterisation of the best-so-far accumulator of the `closeInWin`
scan after the indices `[a, a + cnt)` have been examined: `none` iff no
unvisited candidate was seen; otherwise the held index is the first-seen
minimiser of the proxy distance. -/
def ScanInv (s : Store α) (pLast : α) (a cnt : Nat) : Option (Nat × Int) → Prop
  | none => ∀ j, a ≤ j → j < a + cnt → unvisited? s j = false
  | some (n, c) =>
    a ≤ n ∧ n < a + cnt ∧ unvisited? s n = true ∧
    (∃ ln, s.locs[n]? = some ln ∧ c = s.dsq pLast ln.pt) ∧
    ∀ j, a ≤ j → j < a + cnt → unvisited? s j = true →
      ∃ lj, s.locs[j]? = some lj ∧
        c ≤ s.dsq pLast lj.pt ∧ (j < n → c < s.dsq pLast lj.pt)

/-- Concrete five-location store over 1-D proxy positions (the scenario
data of spec §8), squared-difference oracle; index 0 already visited. -/
def exStore : Store Int :=
  { dsq := fun a b => (a - b) * (a - b)
    locs := [⟨0, 10⟩, ⟨-1, 1⟩, ⟨-1, 2⟩, ⟨-1, 9⟩, ⟨-1, 8⟩] }

/-- The same five locations, all unvisited (the freshly loaded store). -/
def exStoreFresh : Store Int :=
  { dsq := fun a b => (a - b) * (a - b)
    locs := [⟨-1, 10⟩, ⟨-1, 1⟩, ⟨-1, 2⟩, ⟨-1, 9⟩, ⟨-1, 8⟩] }

/-- Twelve-location store in which only index 0 is unvisited: with
`iWin = 8` and pivot `9` the fallback window is `[1, 12)`, so index 0 is
the only unvisited location outside it. -/
def exStoreZero : Store Int :=
  { dsq := fun a b => (a - b) * (a - b)
    locs := [⟨-1, 0⟩, ⟨0, 1⟩, ⟨1, 2⟩, ⟨2, 3⟩, ⟨3, 4⟩, ⟨4, 5⟩,
             ⟨5, 6⟩, ⟨6, 7⟩, ⟨7, 8⟩, ⟨8, 9⟩, ⟨9, 10⟩, ⟨10, 11⟩] }

/-- A completed five-location store (orders are a permutation of 0..4). -/
def exStoreDone : Store Int :=
  { dsq := fun a b => (a - b) * (a - b)
    locs := [⟨0, 10⟩, ⟨4, 1⟩, ⟨3, 2⟩, ⟨1, 9⟩, ⟨2, 8⟩] }

/- ===== command-line validation and load-phase size check of `main` ===== -/

/-- Observable prelude actions of `main` (`nearNextP8bWindow.c:75-93`). -/
inductive MainEvent where
  | openInputFile
  | createOutputFile
  | configError
  | setHalfWidth (hw : Nat)
deriving Repr, DecidableEq

/-- `MIN_WIN` (`nearNextP8bWindow.c:33`). -/
def MIN_WIN : Int := 16

/-- `MAX_WIN` (`nearNextP8bWindow.c:34`). -/
def MAX_WIN : Int := 32000

/-- Event order of `main`'s prelude (`nearNextP8bWindow.c:78-93`), given the
window-size argument `w` (`n = atoi(argv[3])`): the input file is opened
(line 79), then the output file is created (line 84), and only then is `w`
validated against `[MIN_WIN, MAX_WIN]` (line 90); in-bounds runs proceed
with `iWin = w / 2`. -/
def preludeEvents (w : Int) : List MainEvent :=
  [MainEvent.openInputFile, MainEvent.createOutputFile] ++
    (if w < MIN_WIN ∨ w > MAX_WIN then [MainEvent.configError]
     else [MainEvent.setHalfWidth (w.toNat / 2)])

/-- `lcnCnt = (int)(inFileSize / sizeof(nemoPtUs8))`
(`nearNextP8bWindow.c:100`). -/
def recordCount (recSize fileSize : Nat) : Nat := fileSize / recSize

/-- The divisor of the size-validation expression `inFileSize % lcnCnt`
(`nearNextP8bWindow.c:101`): the record COUNT, not the record size. -/
def sizeCheckDivisor (recSize fileSize : Nat) : Nat := recordCount recSize fileSize

/-- The size-validation test `if (inFileSize % lcnCnt) errorExit(...)`
(`nearNextP8bWindow.c:101`): `true` means the load aborts with the
format error. -/
def sizeCheckRejects (recSize fileSize : Nat) : Bool :=
  fileSize % sizeCheckDivisor recSize fileSize != 0

/- ===================== helper lemmas: window scan ===================== -/

lemma unvisited?_iff {s : Store α} {j : Nat} :
    unvisited? s j = true ↔ ∃ l, s.locs[j]? = some l ∧ l.iOrd = -1 := by
  unfold unvisited?
  cases h : s.locs[j]? with
  | none => simp
  | some l => simp

lemma unvisited?_false_of_none {s : Store α} {j : Nat}
    (h : s.locs[j]? = none) : unvisited? s j = false := by
  unfold unvisited?; rw [h]

lemma unvisited?_lt_length {s : Store α} {j : Nat}
    (h : unvisited? s j = true) : j < s.locs.length := by
  rcases unvisited?_iff.mp h with ⟨l, hl, _⟩
  exact (List.getElem?_eq_some_iff.mp hl).1

lemma scanInv_step (s : Store α) (pLast : α) (a cnt : Nat)
    {r : Option (Nat × Int)} (h : ScanInv s pLast a cnt r) :
    ScanInv s pLast a (cnt + 1) (considered s pLast r (a + cnt)) := by
  unfold considered
  cases hm : s.locs[a + cnt]? with
  | none =>
    cases r with
    | none =>
      intro j h1 h2
      rcases (by omega : j < a + cnt ∨ j = a + cnt) with h2' | h2'
      · exact h j h1 h2'
      · subst h2'; exact unvisited?_false_of_none hm
    | some nc =>
      obtain ⟨n, c⟩ := nc
      obtain ⟨hn1, hn2, hn3, hn4, hn5⟩ := h
      refine ⟨hn1, by omega, hn3, hn4, ?_⟩
      intro j h1 h2 hj
      rcases (by omega : j < a + cnt ∨ j = a + cnt) with h2' | h2'
      · exact hn5 j h1 h2' hj
      · subst h2'; rw [unvisited?_false_of_none hm] at hj; cases hj
  | some l =>
    by_cases hv : l.iOrd = -1
    · have hunv : unvisited? s (a + cnt) = true := by
        unfold unvisited?; rw [hm]; simpa using hv
      simp only [hv, beq_self_eq_true, if_true]
      cases r with
      | none =>
        refine ⟨Nat.le_add_right a cnt, by omega, hunv, ⟨l, hm, rfl⟩, ?_⟩
        intro j h1 h2 hj
        rcases (by omega : j < a + cnt ∨ j = a + cnt) with h2' | h2'
        · rw [h j h1 h2'] at hj; cases hj
        · subst h2'
          exact ⟨l, hm, le_refl _, fun hlt => absurd hlt (lt_irrefl _)⟩
      | some nc =>
        obtain ⟨n, c⟩ := nc
        obtain ⟨hn1, hn2, hn3, hn4, hn5⟩ := h
        by_cases hcmp : s.dsq pLast l.pt < c
        · simp only [hcmp, if_true]
          refine ⟨Nat.le_add_right a cnt, by omega, hunv, ⟨l, hm, rfl⟩, ?_⟩
          intro j h1 h2 hj
          rcases (by omega : j < a + cnt ∨ j = a + cnt) with h2' | h2'
          · obtain ⟨lj, hlj, hle, _⟩ := hn5 j h1 h2' hj
            exact ⟨lj, hlj, le_of_lt (lt_of_lt_of_le hcmp hle),
              fun _ => lt_of_lt_of_le hcmp hle⟩
          · subst h2'
            exact ⟨l, hm, le_refl _, fun hlt => absurd hlt (lt_irrefl _)⟩
        · simp only [hcmp, if_false]
          refine ⟨hn1, by omega, hn3, hn4, ?_⟩
          intro j h1 h2 hj
          rcases (by omega : j < a + cnt ∨ j = a + cnt) with h2' | h2'
          · exact hn5 j h1 h2' hj
          · subst h2'
            exact ⟨l, hm, not_lt.mp hcmp, fun hlt => by omega⟩
    · have hunv : unvisited? s (a + cnt) = false := by
        unfold unvisited?; rw [hm]; simpa using hv
      have hbeq : (l.iOrd == -1) = false := by simpa using hv
      simp only [hbeq, Bool.false_eq_true, if_false]
      cases r with
      | none =>
        intro j h1 h2
        rcases (by omega : j < a + cnt ∨ j = a + cnt) with h2' | h2'
        · exact h j h1 h2'
        · subst h2'; exact hunv
      | some nc =>
        obtain ⟨n, c⟩ := nc
        obtain ⟨hn1, hn2, hn3, hn4, hn5⟩ := h
        refine ⟨hn1, by omega, hn3, hn4, ?_⟩
        intro j h1 h2 hj
        rcases (by omega : j < a + cnt ∨ j = a + cnt) with h2' | h2'
        · exact hn5 j h1 h2' hj
        · subst h2'; rw [hunv] at hj; cases hj

lemma scanInv_foldl (s : Store α) (pLast : α) (a : Nat) :
    ∀ cnt, ScanInv s pLast a cnt ((List.range' a cnt).foldl (considered s pLast) none)
  | 0 => by intro j h1 h2; omega
  | cnt + 1 => by
    rw [List.range'_concat, List.foldl_append]
    simpa using scanInv_step s pLast a cnt (scanInv_foldl s pLast a cnt)

/- ======================= claims C2 and C5 ======================= -/

/-- C2: for every store, pivot `p` (valid, as in every call the driver
makes) and halfWidth `h`, `closeInWin` returns `none` exactly when the
window `[max 0 (p-h), min N (p+h))` holds no unvisited location, and
otherwise returns the unvisited index of minimum proxy distance in that
window, the first-seen (lower) index winning ties. -/
theorem windowSearch_correct (s : Store α) (iWin p : Nat) (hp : p < s.locs.length) :
    (closeInWin s iWin p = none ↔
      ∀ j, p - iWin ≤ j → j < min (p + iWin) s.locs.length → unvisited? s j = false) ∧
    (∀ n, closeInWin s iWin p = some n →
      (p - iWin ≤ n ∧ n < min (p + iWin) s.locs.length ∧ unvisited? s n = true) ∧
      ∀ j, p - iWin ≤ j → j < min (p + iWin) s.locs.length → unvisited? s j = true →
        ∃ dn dj, dist? s p n = some dn ∧ dist? s p j = some dj ∧
          dn ≤ dj ∧ (dj ≤ dn → n ≤ j)) := by
  cases hlp : s.locs[p]? with
  | none =>
    have := List.getElem?_eq_none_iff.mp hlp
    omega
  | some lp =>
    have harith : p - iWin ≤ min (p + iWin) s.locs.length := by omega
    have hcw : closeInWin s iWin p =
        ((List.range' (p - iWin) (min (p + iWin) s.locs.length - (p - iWin))).foldl
          (considered s lp.pt) none).map Prod.fst := by
      unfold closeInWin; rw [hlp]
    have inv := scanInv_foldl s lp.pt (p - iWin) (min (p + iWin) s.locs.length - (p - iWin))
    cases hr : (List.range' (p - iWin) (min (p + iWin) s.locs.length - (p - iWin))).foldl
        (considered s lp.pt) none with
    | none =>
      rw [hr] at inv
      constructor
      · constructor
        · intro _ j hj1 hj2
          exact inv j hj1 (by omega)
        · intro _; rw [hcw, hr]; rfl
      · intro n hn
        rw [hcw, hr] at hn; cases hn
    | some nc =>
      obtain ⟨n, c⟩ := nc
      rw [hr] at inv
      obtain ⟨hn1, hn2, hn3, ⟨ln, hln, hc⟩, hmin⟩ := inv
      constructor
      · constructor
        · intro hnone; rw [hcw, hr] at hnone; cases hnone
        · intro hall
          rw [hall n hn1 (by omega)] at hn3; cases hn3
      · intro n' hn'
        rw [hcw, hr] at hn'
        have hnn : n = n' := by simpa using hn'
        subst hnn
        refine ⟨⟨hn1, by omega, hn3⟩, ?_⟩
        intro j hj1 hj2 hj3
        obtain ⟨lj, hlj, hle, hstrict⟩ := hmin j hj1 (by omega) hj3
        refine ⟨c, s.dsq lp.pt lj.pt, ?_, ?_, hle, ?_⟩
        · unfold dist?; rw [hlp, hln, hc]
        · unfold dist?; rw [hlp, hlj]
        · intro hdj
          by_contra hnj
          have := hstrict (by omega)
          omega

/-- Witness for C2: instantiation at the concrete store, pivot 0,
halfWidth 2 (window `[0, 2)`, whose only unvisited location is index 1). -/
theorem windowSearch_correct_witness :
    0 < exStore.locs.length ∧
    ((closeInWin exStore 2 0 = none ↔
      ∀ j, 0 - 2 ≤ j → j < min (0 + 2) exStore.locs.length → unvisited? exStore j = false) ∧
    (∀ n, closeInWin exStore 2 0 = some n →
      (0 - 2 ≤ n ∧ n < min (0 + 2) exStore.locs.length ∧ unvisited? exStore n = true) ∧
      ∀ j, 0 - 2 ≤ j → j < min (0 + 2) exStore.locs.length → unvisited? exStore j = true →
        ∃ dn dj, dist? exStore 0 n = some dn ∧ dist? exStore 0 j = some dj ∧
          dn ≤ dj ∧ (dj ≤ dn → n ≤ j))) :=
  ⟨by decide, windowSearch_correct exStore 2 0 (by decide)⟩

/-- The spec-modelled unbounded comparison step is literally the window
variant's comparison step. -/
lemma nnStep_eq (s : Store α) : nnStep s = considered s := rfl

/-- C5: with halfWidth at least the store size the window clamps to
`[0, N)` and `closeInWin` coincides with the unbounded nearest-neighbour
search at every pivot. -/
theorem windowSearch_degenerate (s : Store α) (iWin p : Nat)
    (h : s.locs.length ≤ iWin) : closeInWin s iWin p = unboundedNN s p := by
  unfold closeInWin unboundedNN
  cases hlp : s.locs[p]? with
  | none => rfl
  | some lp =>
    have hplen : p < s.locs.length := (List.getElem?_eq_some_iff.mp hlp).1
    have h0 : p - iWin = 0 := by omega
    have h2 : min (p + iWin) s.locs.length = s.locs.length := by omega
    rw [h0, h2]
    simp [nnStep_eq, List.range_eq_range']

/-- Witness for C5: at the concrete store, `iWin = 5 = N` makes the two
searches agree at pivot 0. -/
theorem windowSearch_degenerate_witness :
    exStore.locs.length ≤ 5 ∧ closeInWin exStore 5 0 = unboundedNN exStore 0 :=
  ⟨by decide, windowSearch_degenerate exStore 5 0 (by decide)⟩

/- ================= helper lemmas: outward fallback scan ================= -/

lemma outScanF_ne_zero (s : Store α) :
    ∀ fuel nLow nHigh, (s.locs.length = 0 ∨ 1 ≤ nHigh) →
      outScanF s fuel nLow nHigh ≠ some 0
  | 0, _, _, _ => by simp [outScanF]
  | fuel + 1, nLow, nHigh, h => by
    simp only [outScanF]
    split_ifs with h1 h2 h3 h4
    · intro hc
      injection hc with hc
      omega
    · intro hc
      injection hc with hc
      omega
    · exact outScanF_ne_zero s fuel (nLow - 1) (nHigh + 1) (by omega)
    · exact outScanF_ne_zero s fuel (nLow - 1) nHigh h
    · simp

lemma outScanF_none_of_only_zero (s : Store α)
    (honly : ∀ j, unvisited? s j = true → j = 0) :
    ∀ fuel nLow nHigh, (s.locs.length = 0 ∨ 1 ≤ nHigh) →
      outScanF s fuel nLow nHigh = none
  | 0, _, _, _ => by simp [outScanF]
  | fuel + 1, nLow, nHigh, h => by
    simp only [outScanF]
    split_ifs with h1 h2 h3 h4
    · exfalso
      have := honly nLow h2.2
      omega
    · exfalso
      have := honly nHigh h4
      omega
    · exact outScanF_none_of_only_zero s honly fuel (nLow - 1) (nHigh + 1) (by omega)
    · exact outScanF_none_of_only_zero s honly fuel (nLow - 1) nHigh h
    · rfl

lemma outKey_shift_both {len nLow nHigh j : Nat}
    (h : outReach len (nLow - 1) (nHigh + 1) j) (hle : nLow ≤ nHigh) :
    outKey nLow nHigh j = outKey (nLow - 1) (nHigh + 1) j + 2 := by
  unfold outReach at h
  unfold outKey
  split_ifs <;> omega

lemma outKey_shift_low {len nLow nHigh j : Nat}
    (h : outReach len (nLow - 1) nHigh j) (hlen : len ≤ nHigh) :
    outKey nLow nHigh j = outKey (nLow - 1) nHigh j + 2 := by
  unfold outReach at h
  unfold outKey
  split_ifs <;> omega

lemma outReach_mono_both {len nLow nHigh j : Nat}
    (h : outReach len (nLow - 1) (nHigh + 1) j) : outReach len nLow nHigh j := by
  unfold outReach at *
  omega

lemma outReach_mono_low {len nLow nHigh j : Nat}
    (h : outReach len (nLow - 1) nHigh j) : outReach len nLow nHigh j := by
  unfold outReach at *
  omega

/-- The fallback loop, run with enough fuel from boundaries
`nLow ≤ nHigh`, returns the unvisited reachable index of minimum
alternation key whenever one exists. -/
lemma outScanF_argmin (s : Store α) :
    ∀ fuel nLow nHigh,
      nLow + (s.locs.length - nHigh) < fuel →
      nLow ≤ nHigh →
      (∃ j, outReach s.locs.length nLow nHigh j ∧ unvisited? s j = true) →
      ∃ n, outScanF s fuel nLow nHigh = some n ∧ unvisited? s n = true ∧
        outReach s.locs.length nLow nHigh n ∧
        ∀ j, outReach s.locs.length nLow nHigh j → unvisited? s j = true →
          outKey nLow nHigh n ≤ outKey nLow nHigh j
  | 0, nLow, nHigh, hfuel, _, _ => by omega
  | fuel + 1, nLow, nHigh, hfuel, hle, ⟨j0, hr0, hu0⟩ => by
    have hj0len : j0 < s.locs.length := unvisited?_lt_length hu0
    have hcond : 0 < nLow ∨ nHigh < s.locs.length := by
      rcases hr0 with ⟨h1, h2⟩ | ⟨h1, h2⟩ <;> omega
    simp only [outScanF]
    rw [if_pos hcond]
    by_cases hA : 0 < nLow ∧ unvisited? s nLow = true
    · rw [if_pos hA]
      refine ⟨nLow, rfl, hA.2, Or.inl ⟨hA.1, le_refl _⟩, ?_⟩
      intro j _ _
      have : outKey nLow nHigh nLow = 0 := by
        unfold outKey
        simp
      omega
    · rw [if_neg hA]
      have hnotnLow : ∀ j, unvisited? s j = true → 1 ≤ j → j ≤ nLow → j ≤ nLow - 1 := by
        intro j hu hj1 hj2
        by_contra hc
        have hj : j = nLow := by omega
        subst hj
        exact hA ⟨by omega, hu⟩
      by_cases hB : nHigh < s.locs.length
      · rw [if_pos hB]
        by_cases hC : unvisited? s nHigh = true
        · rw [if_pos hC]
          refine ⟨nHigh, rfl, hC, Or.inr ⟨le_refl _, hB⟩, ?_⟩
          intro j hr hu
          have hkeyH : outKey nLow nHigh nHigh ≤ 1 := by
            unfold outKey
            split_ifs <;> omega
          by_cases hk : outKey nLow nHigh j = 0
          · have hjn : j = nLow := by
              unfold outKey at hk
              split_ifs at hk
              all_goals omega
            rcases hr with ⟨h1, h2⟩ | ⟨h1, h2⟩
            · exact absurd ⟨by omega, hjn ▸ hu⟩ hA
            · have hjh : j = nHigh := by omega
              subst hjh
              exact le_refl _
          · omega
        · rw [if_neg hC]
          have hr0' : outReach s.locs.length (nLow - 1) (nHigh + 1) j0 := by
            rcases hr0 with ⟨h1, h2⟩ | ⟨h1, h2⟩
            · exact Or.inl ⟨h1, hnotnLow j0 hu0 h1 h2⟩
            · refine Or.inr ⟨?_, h2⟩
              rcases Nat.eq_or_lt_of_le h1 with he | hl
              · exact absurd (he ▸ hu0) (by simpa using hC)
              · omega
          obtain ⟨n, heq, hun, hrn, hmin⟩ :=
            outScanF_argmin s fuel (nLow - 1) (nHigh + 1) (by omega) (by omega)
              ⟨j0, hr0', hu0⟩
          refine ⟨n, heq, hun, outReach_mono_both hrn, ?_⟩
          intro j hr hu
          have hr' : outReach s.locs.length (nLow - 1) (nHigh + 1) j := by
            rcases hr with ⟨h1, h2⟩ | ⟨h1, h2⟩
            · exact Or.inl ⟨h1, hnotnLow j hu h1 h2⟩
            · refine Or.inr ⟨?_, h2⟩
              rcases Nat.eq_or_lt_of_le h1 with he | hl
              · exact absurd (he ▸ hu) (by simpa using hC)
              · omega
          have := hmin j hr' hu
          rw [outKey_shift_both hrn hle, outKey_shift_both hr' hle]
          omega
      · rw [if_neg hB]
        have hlow0 : 0 < nLow := by omega
        have hr0' : outReach s.locs.length (nLow - 1) nHigh j0 := by
          rcases hr0 with ⟨h1, h2⟩ | ⟨h1, h2⟩
          · exact Or.inl ⟨h1, hnotnLow j0 hu0 h1 h2⟩
          · omega
        obtain ⟨n, heq, hun, hrn, hmin⟩ :=
          outScanF_argmin s fuel (nLow - 1) nHigh (by omega) (by omega) ⟨j0, hr0', hu0⟩
        refine ⟨n, heq, hun, outReach_mono_low hrn, ?_⟩
        intro j hr hu
        have hr' : outReach s.locs.length (nLow - 1) nHigh j := by
          rcases hr with ⟨h1, h2⟩ | ⟨h1, h2⟩
          · exact Or.inl ⟨h1, hnotnLow j hu h1 h2⟩
          · omega
        have := hmin j hr' hu
        rw [outKey_shift_low hrn (by omega), outKey_shift_low hr' (by omega)]
        omega

/- ======================= claims C9 and C3 ======================= -/

/-- C9: the fallback scan never returns index 0 (the low-side guard
`nLow > 0` keeps it from ever examining that slot, and the high-side
cursor starts at `min (p + iWin) N ≥ 1`); consequently, when index 0 is
the only possibly-unvisited location, the scan reports `NotFound` even
though an unvisited location may exist.  The hypothesis `1 ≤ p + iWin`
always holds in the program, where `iWin = w / 2 ≥ 8`. -/
theorem fallback_skips_index_zero (s : Store α) (iWin p : Nat)
    (h : 1 ≤ p + iWin) :
    closeOutWin s iWin p ≠ some 0 ∧
    ((∀ j, unvisited? s j = true → j = 0) → closeOutWin s iWin p = none) := by
  unfold closeOutWin
  have hcase : s.locs.length = 0 ∨ 1 ≤ min (p + iWin) s.locs.length := by omega
  exact ⟨outScanF_ne_zero s _ _ _ hcase,
    fun honly => outScanF_none_of_only_zero s honly _ _ _ hcase⟩

/-- Witness for C9: in the twelve-location store whose only unvisited
location is index 0, the fallback from pivot 9 with halfWidth 8 returns
`NotFound`. -/
theorem fallback_skips_index_zero_witness :
    1 ≤ 9 + 8 ∧
    (closeOutWin exStoreZero 8 9 ≠ some 0 ∧
     ((∀ j, unvisited? exStoreZero j = true → j = 0) →
       closeOutWin exStoreZero 8 9 = none)) :=
  ⟨by decide, fallback_skips_index_zero exStoreZero 8 9 (by decide)⟩

/-- Counterexample to C3 as stated: in `exStoreZero` with halfWidth 8 and
pivot 9 the window is `[1, 12)`, index 0 is unvisited and lies outside the
window (below its low edge `9 - 8 = 1`), yet `closeOutWin` returns
`NotFound` instead of the nearest-by-index unvisited location. -/
theorem fallback_nearest_cex :
    unvisited? exStoreZero 0 = true ∧ 0 < 9 - 8 ∧
    closeOutWin exStoreZero 8 9 = none := by decide

/-- C3 (amended): `closeOutWin` initialises `low = max 0 (p - h)` and
`high = min N (p + h)` and alternates outward, testing the low boundary
(only while `low > 0`) before the high boundary at each step; among the
indices it can reach — `[1, low] ∪ [high, N)`, index 0 excluded — it
returns the unvisited one of minimum outward offset, preferring the low
side on equal offset (the lexicographic order encoded by `outKey`),
whenever such an index exists. -/
theorem fallback_nearest_amended (s : Store α) (iWin p : Nat)
    (hp : p < s.locs.length)
    (hex : ∃ j, outReach s.locs.length (p - iWin) (min (p + iWin) s.locs.length) j ∧
      unvisited? s j = true) :
    ∃ n, closeOutWin s iWin p = some n ∧ unvisited? s n = true ∧
      outReach s.locs.length (p - iWin) (min (p + iWin) s.locs.length) n ∧
      ∀ j, outReach s.locs.length (p - iWin) (min (p + iWin) s.locs.length) j →
        unvisited? s j = true →
        outKey (p - iWin) (min (p + iWin) s.locs.length) n ≤
          outKey (p - iWin) (min (p + iWin) s.locs.length) j := by
  unfold closeOutWin
  exact outScanF_argmin s _ _ _ (by omega) (by omega) hex

/-- Witness for C3 (amended): the concrete store, halfWidth 1, pivot 3
(window `[2, 4)`); index 1 is unvisited and reachable on the low side. -/
theorem fallback_nearest_amended_witness :
    3 < exStore.locs.length ∧
    (∃ n, closeOutWin exStore 1 3 = some n ∧ unvisited? exStore n = true ∧
      outReach exStore.locs.length (3 - 1) (min (3 + 1) exStore.locs.length) n ∧
      ∀ j, outReach exStore.locs.length (3 - 1) (min (3 + 1) exStore.locs.length) j →
        unvisited? exStore j = true →
        outKey (3 - 1) (min (3 + 1) exStore.locs.length) n ≤
          outKey (3 - 1) (min (3 + 1) exStore.locs.length) j) :=
  ⟨by decide, fallback_nearest_amended exStore 1 3 (by decide) ⟨1, by decide⟩⟩

/- ============ helper lemmas: two-level search completeness ============ -/

lemma outScanF_sound (s : Store α) :
    ∀ fuel nLow nHigh n, outScanF s fuel nLow nHigh = some n →
      unvisited? s n = true
  | 0, _, _, _ => by simp [outScanF]
  | fuel + 1, nLow, nHigh, n => by
    simp only [outScanF]
    split_ifs with h1 h2 h3 h4
    · intro h
      injection h with h
      exact h ▸ h2.2
    · intro h
      injection h with h
      exact h ▸ h4
    · exact outScanF_sound s fuel (nLow - 1) (nHigh + 1) n
    · exact outScanF_sound s fuel (nLow - 1) nHigh n
    · simp

lemma closeInWin_sound (s : Store α) (iWin p n : Nat)
    (h : closeInWin s iWin p = some n) :
    unvisited? s n = true ∧ p - iWin ≤ n ∧ n < min (p + iWin) s.locs.length := by
  cases hlp : s.locs[p]? with
  | none =>
    unfold closeInWin at h
    rw [hlp] at h
    cases h
  | some lp =>
    have hcw : closeInWin s iWin p =
        ((List.range' (p - iWin) (min (p + iWin) s.locs.length - (p - iWin))).foldl
          (considered s lp.pt) none).map Prod.fst := by
      unfold closeInWin; rw [hlp]
    rw [hcw] at h
    have inv := scanInv_foldl s lp.pt (p - iWin)
      (min (p + iWin) s.locs.length - (p - iWin))
    cases hr : (List.range' (p - iWin) (min (p + iWin) s.locs.length - (p - iWin))).foldl
        (considered s lp.pt) none with
    | none => rw [hr] at h; cases h
    | some nc =>
      obtain ⟨n', c⟩ := nc
      rw [hr] at h inv
      have hnn : n' = n := by simpa using h
      subst hnn
      obtain ⟨h1, h2, h3, _, _⟩ := inv
      exact ⟨h3, h1, by omega⟩

lemma closeInWin_none (s : Store α) (iWin p : Nat) (hp : p < s.locs.length)
    (h : closeInWin s iWin p = none) :
    ∀ j, p - iWin ≤ j → j < min (p + iWin) s.locs.length →
      unvisited? s j = false := by
  cases hlp : s.locs[p]? with
  | none =>
    have := List.getElem?_eq_none_iff.mp hlp
    omega
  | some lp =>
    have hcw : closeInWin s iWin p =
        ((List.range' (p - iWin) (min (p + iWin) s.locs.length - (p - iWin))).foldl
          (considered s lp.pt) none).map Prod.fst := by
      unfold closeInWin; rw [hlp]
    rw [hcw] at h
    have inv := scanInv_foldl s lp.pt (p - iWin)
      (min (p + iWin) s.locs.length - (p - iWin))
    cases hr : (List.range' (p - iWin) (min (p + iWin) s.locs.length - (p - iWin))).foldl
        (considered s lp.pt) none with
    | none =>
      rw [hr] at inv
      intro j hj1 hj2
      exact inv j hj1 (by omega)
    | some nc =>
      rw [hr] at h; cases h

lemma closeOutWin_finds (s : Store α) (iWin p : Nat) (hp : p < s.locs.length)
    (hex : ∃ j, outReach s.locs.length (p - iWin) (min (p + iWin) s.locs.length) j ∧
      unvisited? s j = true) :
    ∃ n, closeOutWin s iWin p = some n ∧ unvisited? s n = true := by
  obtain ⟨n, h1, h2, _, _⟩ := outScanF_argmin s
    ((p - iWin) + (s.locs.length - min (p + iWin) s.locs.length) + 1)
    (p - iWin) (min (p + iWin) s.locs.length) (by omega) (by omega) hex
  exact ⟨n, h1, h2⟩

/-- Whenever the pivot is valid, location 0 is visited and some unvisited
location exists, the two-level search yields a valid unvisited index. -/
lemma nextLoc_total (s : Store α) (iWin p : Nat) (hp : p < s.locs.length)
    (h0 : unvisited? s 0 = false)
    (hex : ∃ j, unvisited? s j = true) :
    ∃ n, nextLoc s iWin p = some n ∧ unvisited? s n = true ∧
      n < s.locs.length := by
  obtain ⟨j, hj⟩ := hex
  have hjlen := unvisited?_lt_length hj
  have hj0 : j ≠ 0 := by
    intro h
    rw [h, h0] at hj
    cases hj
  unfold nextLoc
  cases hin : closeInWin s iWin p with
  | some n =>
    obtain ⟨hu, _, _⟩ := closeInWin_sound s iWin p n hin
    exact ⟨n, rfl, hu, unvisited?_lt_length hu⟩
  | none =>
    have hall := closeInWin_none s iWin p hp hin
    have hreach : outReach s.locs.length (p - iWin)
        (min (p + iWin) s.locs.length) j := by
      unfold outReach
      by_cases hle : j ≤ p - iWin
      · left; omega
      · right
        refine ⟨?_, hjlen⟩
        by_contra hc
        have := hall j (by omega) (by omega)
        rw [this] at hj
        cases hj
    obtain ⟨n, h1, h2⟩ := closeOutWin_finds s iWin p hp ⟨j, hreach, hj⟩
    exact ⟨n, h1, h2, unvisited?_lt_length h2⟩

/- ============================ claim C4 ============================ -/

/-- C4: under the driver invariant (valid pivot, location 0 visited,
visited count `k` with `1 ≤ k < N`) the two-level search always yields a
valid unvisited index; in particular the fallback cannot report
`NotFound` after the window search failed, so the driver's fatal
assertion branch is unreachable. -/
theorem twoLevel_search_total (s : Store α) (iWin p : Nat)
    (hp : p < s.locs.length)
    (h0 : unvisited? s 0 = false)
    (_hk1 : 1 ≤ visitedCount s)
    (hkN : visitedCount s < s.locs.length) :
    (∃ n, nextLoc s iWin p = some n ∧ unvisited? s n = true ∧
      n < s.locs.length) ∧
    (closeInWin s iWin p = none → closeOutWin s iWin p ≠ none) := by
  have hex : ∃ j, unvisited? s j = true := by
    have hnotall : ¬ ∀ l ∈ s.locs, (!(l.iOrd == -1)) = true := by
      intro hall
      have := List.countP_eq_length.mpr hall
      unfold visitedCount at hkN
      omega
    push_neg at hnotall
    obtain ⟨l, hl, hlv⟩ := hnotall
    obtain ⟨j, hj⟩ := List.getElem?_of_mem hl
    refine ⟨j, ?_⟩
    unfold unvisited?
    rw [hj]
    simpa using hlv
  obtain ⟨n, h1, h2, h3⟩ := nextLoc_total s iWin p hp h0 hex
  refine ⟨⟨n, h1, h2, h3⟩, ?_⟩
  intro hnone
  unfold nextLoc at h1
  rw [hnone] at h1
  have h1c : closeOutWin s iWin p = some n := h1
  rw [h1c]
  simp

/-- Witness for C4: the concrete store (index 0 visited, four unvisited
locations), halfWidth 1, pivot 0. -/
theorem twoLevel_search_total_witness :
    0 < exStore.locs.length ∧ unvisited? exStore 0 = false ∧
    1 ≤ visitedCount exStore ∧ visitedCount exStore < exStore.locs.length ∧
    ((∃ n, nextLoc exStore 1 0 = some n ∧ unvisited? exStore n = true ∧
      n < exStore.locs.length) ∧
    (closeInWin exStore 1 0 = none → closeOutWin exStore 1 0 ≠ none)) :=
  ⟨by decide, by decide, by decide, by decide,
    twoLevel_search_total exStore 1 0 (by decide) (by decide) (by decide) (by decide)⟩

/- ================= helper lemmas: the driver loop ================= -/

lemma cons_set_perm {β : Type} :
    ∀ (l : List β) (n : Nat) (a b : β), l[n]? = some b →
      (b :: l.set n a).Perm (a :: l)
  | [], n, a, b => by simp
  | c :: t, 0, a, b => by
    intro h
    have hc : c = b := by simpa using h
    subst hc
    simpa using List.Perm.swap a c t
  | c :: t, n + 1, a, b => by
    intro h
    have ht : t[n]? = some b := by simpa using h
    have ih := cons_set_perm t n a b ht
    show (b :: c :: t.set n a).Perm (a :: c :: t)
    exact (List.Perm.swap c b _).trans ((ih.cons c).trans (List.Perm.swap a c t))

lemma setOrd_locs {s : Store α} {n : Nat} {l : Loc α} (h : s.locs[n]? = some l)
    (k : Int) : (setOrd s n k).locs = s.locs.set n { l with iOrd := k } := by
  unfold setOrd
  rw [h]

lemma setOrd_length {s : Store α} {n : Nat} {l : Loc α} (h : s.locs[n]? = some l)
    (k : Int) : (setOrd s n k).locs.length = s.locs.length := by
  rw [setOrd_locs h k, List.length_set]

/-- Invariant-carrying specification of the driver loop: started at
counter `k` with fuel `N - k`, a valid pivot, location 0 visited and the
orders so far a permutation of `0..k-1` (the rest unvisited), it
terminates successfully; the final orders are a permutation of `0..N-1`,
the write log records orders `k..N-1` in sequence, writes target valid
indices, already-visited entries survive untouched, and every logged
write is still visible in the final store. -/
lemma driverAux_spec (iWin : Nat) :
    ∀ fuel (s : Store α) (nPrev k : Nat),
      fuel + k = s.locs.length →
      nPrev < s.locs.length →
      unvisited? s 0 = false →
      (s.locs.map Loc.iOrd).Perm
        (((List.range k).map Int.ofNat) ++
          List.replicate (s.locs.length - k) (-1)) →
      ∃ s2 log, driverAux iWin fuel s nPrev k = some (s2, log) ∧
        s2.locs.length = s.locs.length ∧
        (s2.locs.map Loc.iOrd).Perm ((List.range s.locs.length).map Int.ofNat) ∧
        log.map Prod.snd = List.range' k fuel ∧
        (∀ q ∈ log, q.1 < s.locs.length) ∧
        (∀ (m : Nat) (v : Loc α), s.locs[m]? = some v → v.iOrd ≠ -1 →
          s2.locs[m]? = some v) ∧
        (∀ q ∈ log, ∃ v2, s2.locs[q.1]? = some v2 ∧ v2.iOrd = Int.ofNat q.2)
  | 0, s, nPrev, k => by
    intro hfk hprev h0 hperm
    have hkN : k = s.locs.length := by omega
    refine ⟨s, [], by simp [driverAux, hkN], rfl, ?_, by simp, by simp, ?_, by simp⟩
    · rw [hkN] at hperm
      simpa using hperm
    · intro m v hv _
      exact hv
  | fuel + 1, s, nPrev, k => by
    intro hfk hprev h0 hperm
    have hkN : k < s.locs.length := by omega
    have hmem : (-1 : Int) ∈ s.locs.map Loc.iOrd := by
      apply hperm.mem_iff.mpr
      apply List.mem_append_right
      rw [List.mem_replicate]
      exact ⟨by omega, rfl⟩
    obtain ⟨l, hl, hlv⟩ := List.mem_map.mp hmem
    obtain ⟨j, hj⟩ := List.getElem?_of_mem hl
    have hju : unvisited? s j = true := by
      unfold unvisited?
      rw [hj]
      simpa using hlv
    obtain ⟨n, hn1, hn2, hn3⟩ := nextLoc_total s iWin nPrev hprev h0 ⟨j, hju⟩
    obtain ⟨ln, hln, hlnv⟩ := unvisited?_iff.mp hn2
    have hn0 : n ≠ 0 := by
      intro he
      have : unvisited? s 0 = true := he ▸ hn2
      rw [h0] at this
      cases this
    have hs'locs : (setOrd s n (Int.ofNat k)).locs =
        s.locs.set n { ln with iOrd := Int.ofNat k } := setOrd_locs hln _
    have hs'len : (setOrd s n (Int.ofNat k)).locs.length = s.locs.length := by
      rw [hs'locs, List.length_set]
    have h0' : unvisited? (setOrd s n (Int.ofNat k)) 0 = false := by
      unfold unvisited?
      rw [hs'locs, List.getElem?_set_ne hn0]
      exact h0
    have hpermstep : ((-1 : Int) :: (setOrd s n (Int.ofNat k)).locs.map Loc.iOrd).Perm
        ((Int.ofNat k) :: s.locs.map Loc.iOrd) := by
      have hmapped := (cons_set_perm s.locs n { ln with iOrd := Int.ofNat k } ln hln).map
        Loc.iOrd
      rw [List.map_cons, List.map_cons] at hmapped
      rw [hs'locs]
      rw [hlnv] at hmapped
      exact hmapped
    have hrep : List.replicate (s.locs.length - k) (-1 : Int) =
        (-1 : Int) :: List.replicate (s.locs.length - (k + 1)) (-1) := by
      have hd : s.locs.length - k = (s.locs.length - (k + 1)) + 1 := by omega
      rw [hd, List.replicate_succ]
    have hperm' : ((setOrd s n (Int.ofNat k)).locs.map Loc.iOrd).Perm
        (((List.range (k + 1)).map Int.ofNat) ++
          List.replicate ((setOrd s n (Int.ofNat k)).locs.length - (k + 1)) (-1)) := by
      rw [hs'len]
      apply List.Perm.cons_inv
      refine hpermstep.trans ?_
      refine (hperm.cons _).trans ?_
      rw [hrep]
      refine (List.perm_middle.cons _).trans ?_
      refine (List.Perm.swap _ _ _).trans ?_
      apply List.Perm.cons
      rw [List.range_succ, List.map_append, List.append_assoc]
      exact List.perm_middle.symm
    obtain ⟨s2, log, hrec1, hrec2, hrec3, hrec4, hrec5, hrec6, hrec7⟩ :=
      driverAux_spec iWin fuel (setOrd s n (Int.ofNat k)) n (k + 1)
        (by rw [hs'len]; omega) (by rw [hs'len]; exact hn3) h0' hperm'
    rw [hs'len] at hrec2 hrec3 hrec5
    refine ⟨s2, (n, k) :: log, ?_, hrec2, hrec3, ?_, ?_, ?_, ?_⟩
    · simp only [driverAux]
      rw [if_pos hkN, hn1]
      show Option.map (fun r => (r.1, (n, k) :: r.2))
        (driverAux iWin fuel (setOrd s n (Int.ofNat k)) n (k + 1)) =
        some (s2, (n, k) :: log)
      rw [hrec1]
      rfl
    · rw [List.map_cons, hrec4, List.range'_succ]
    · intro q hq
      rcases List.mem_cons.mp hq with hq' | hq'
      · rw [hq']
        exact hn3
      · exact hrec5 q hq'
    · intro m v hv hviord
      have hmn : m ≠ n := by
        intro he
        rw [he, hln] at hv
        injection hv with hv
        rw [hv] at hlnv
        exact hviord hlnv
      apply hrec6
      · rw [hs'locs, List.getElem?_set_ne (Ne.symm hmn)]
        exact hv
      · exact hviord
    · intro q hq
      rcases List.mem_cons.mp hq with hq' | hq'
      · rw [hq']
        refine ⟨{ ln with iOrd := Int.ofNat k }, ?_, rfl⟩
        apply hrec6
        · rw [hs'locs, List.getElem?_set_self hn3]
        · simp
      · exact hrec7 q hq'

/- ============================ claim C1 ============================ -/

/-- C1: for every freshly loaded store of `N ≥ 1` locations (all orders
at the `-1` sentinel) and every halfWidth, the driver loop terminates
successfully; the final `iOrd` values are a permutation of `0..N-1`, and
the write log shows the order fields were written exactly once each — `N`
writes carrying orders `0..N-1` in sequence, targeting `N` distinct valid
indices, every write still visible in the final store (so each location
went from `-1` to its final order in a single write). -/
theorem driver_permutation (iWin : Nat) (s : Store α)
    (hN : 1 ≤ s.locs.length) (hfresh : ∀ l ∈ s.locs, l.iOrd = -1) :
    ∃ s2 log, runDriverLog iWin s = some (s2, log) ∧
      (s2.locs.map Loc.iOrd).Perm ((List.range s.locs.length).map Int.ofNat) ∧
      log.map Prod.snd = List.range s.locs.length ∧
      (log.map Prod.fst).Nodup ∧
      log.length = s.locs.length ∧
      (∀ q ∈ log, q.1 < s.locs.length ∧
        ∃ v2, s2.locs[q.1]? = some v2 ∧ v2.iOrd = Int.ofNat q.2) := by
  cases hl0 : s.locs[0]? with
  | none =>
    have := List.getElem?_eq_none_iff.mp hl0
    omega
  | some l0 =>
    have hl0mem : l0 ∈ s.locs := by
      obtain ⟨hlt, he⟩ := List.getElem?_eq_some_iff.mp hl0
      exact he ▸ List.getElem_mem hlt
    have hl0v : l0.iOrd = -1 := hfresh l0 hl0mem
    have hs1locs : (setOrd s 0 (0 : Int)).locs =
        s.locs.set 0 { l0 with iOrd := 0 } := setOrd_locs hl0 0
    have hs1len : (setOrd s 0 (0 : Int)).locs.length = s.locs.length := by
      rw [hs1locs, List.length_set]
    have h01 : unvisited? (setOrd s 0 (0 : Int)) 0 = false := by
      unfold unvisited?
      rw [hs1locs, List.getElem?_set_self (by omega)]
      simp
    have hperm1 : ((setOrd s 0 (0 : Int)).locs.map Loc.iOrd).Perm
        (((List.range 1).map Int.ofNat) ++
          List.replicate ((setOrd s 0 (0 : Int)).locs.length - 1) (-1)) := by
      rw [hs1len]
      apply List.Perm.cons_inv
      have hmapped := (cons_set_perm s.locs 0 { l0 with iOrd := 0 } l0 hl0).map Loc.iOrd
      rw [List.map_cons, List.map_cons, hl0v] at hmapped
      have hmapfresh : s.locs.map Loc.iOrd =
          List.replicate s.locs.length (-1 : Int) := by
        have := List.eq_replicate_of_mem (l := s.locs.map Loc.iOrd) (a := (-1 : Int)) ?_
        · rw [this, List.length_map]
        · intro b hb
          obtain ⟨l, hl, hle⟩ := List.mem_map.mp hb
          rw [← hle]
          exact hfresh l hl
      have hrep1 : List.replicate s.locs.length (-1 : Int) =
          (-1 : Int) :: List.replicate (s.locs.length - 1) (-1) := by
        have hd : s.locs.length = (s.locs.length - 1) + 1 := by omega
        conv_lhs => rw [hd, List.replicate_succ]
      refine (hs1locs ▸ hmapped).trans ?_
      rw [hmapfresh, hrep1]
      show ((0 : Int) :: (-1 : Int) :: List.replicate (s.locs.length - 1) (-1)).Perm _
      refine (List.Perm.swap _ _ _).trans ?_
      apply List.Perm.cons
      exact List.Perm.refl _
  -- run the driver loop from k = 1
    obtain ⟨s2, log, hrec1, hrec2, hrec3, hrec4, hrec5, hrec6, hrec7⟩ :=
      driverAux_spec iWin (s.locs.length - 1) (setOrd s 0 (0 : Int)) 0 1
        (by omega) (by omega) h01 hperm1
    rw [hs1len] at hrec2 hrec3 hrec5
    have hlogsnd : (((0, 0) :: log).map Prod.snd) = List.range s.locs.length := by
      have hd : s.locs.length = (s.locs.length - 1) + 1 := by omega
      rw [List.map_cons, hrec4, List.range_eq_range']
      conv_rhs => rw [hd, List.range'_succ]
    have hentry : ∀ q ∈ ((0, 0) :: log), q.1 < s.locs.length ∧
        ∃ v2, s2.locs[q.1]? = some v2 ∧ v2.iOrd = Int.ofNat q.2 := by
      intro q hq
      rcases List.mem_cons.mp hq with hq' | hq'
      · rw [hq']
        refine ⟨by omega, { l0 with iOrd := 0 }, ?_, rfl⟩
        apply hrec6
        · rw [hs1locs, List.getElem?_set_self (by omega)]
        · simp
      · exact ⟨hrec5 q hq', hrec7 q hq'⟩
    refine ⟨s2, (0, 0) :: log, ?_, hrec3, hlogsnd, ?_, ?_, hentry⟩
    · unfold runDriverLog
      rw [hrec1]
      rfl
    · apply List.Nodup.map_on
      · intro x hx y hy hxy
        obtain ⟨x1, x2⟩ := x
        obtain ⟨y1, y2⟩ := y
        obtain ⟨_, vx, hvx, hvxo⟩ := hentry _ hx
        obtain ⟨_, vy, hvy, hvyo⟩ := hentry _ hy
        have hxy1 : x1 = y1 := hxy
        subst hxy1
        rw [hvx] at hvy
        have hvv : vx = vy := Option.some.inj hvy
        subst hvv
        have hoo : Int.ofNat x2 = Int.ofNat y2 := by
          rw [← hvxo]
          exact hvyo
        have h22 : x2 = y2 := Int.ofNat.inj hoo
        subst h22
        rfl
      · exact List.Nodup.of_map Prod.snd (hlogsnd ▸ List.nodup_range s.locs.length)
    · have := congrArg List.length hlogsnd
      simpa using this

/-- Witness for C1: the fresh five-location store, halfWidth 1. -/
theorem driver_permutation_witness :
    1 ≤ exStoreFresh.locs.length ∧ (∀ l ∈ exStoreFresh.locs, l.iOrd = -1) ∧
    (∃ s2 log, runDriverLog 1 exStoreFresh = some (s2, log) ∧
      (s2.locs.map Loc.iOrd).Perm
        ((List.range exStoreFresh.locs.length).map Int.ofNat) ∧
      log.map Prod.snd = List.range exStoreFresh.locs.length ∧
      (log.map Prod.fst).Nodup ∧
      log.length = exStoreFresh.locs.length ∧
      (∀ q ∈ log, q.1 < exStoreFresh.locs.length ∧
        ∃ v2, s2.locs[q.1]? = some v2 ∧ v2.iOrd = Int.ofNat q.2)) :=
  ⟨by decide, by decide, driver_permutation 1 exStoreFresh (by decide) (by decide)⟩

/- ============================ claim C8 ============================ -/

lemma ordLe_trans : ∀ a b c : Loc α,
    decide (a.iOrd ≤ b.iOrd) = true → decide (b.iOrd ≤ c.iOrd) = true →
    decide (a.iOrd ≤ c.iOrd) = true := by
  intro a b c hab hbc
  rw [decide_eq_true_eq] at hab hbc ⊢
  omega

lemma ordLe_total : ∀ a b : Loc α,
    (decide (a.iOrd ≤ b.iOrd) || decide (b.iOrd ≤ a.iOrd)) = true := by
  intro a b
  simp only [Bool.or_eq_true, decide_eq_true_eq]
  omega

/-- C8: on a completed store (orders a permutation of `0..N-1`) the
output sequencer places the location visited `i`-th at position `i`, and
it is idempotent: re-sorting its own output changes nothing. -/
theorem output_sequencer (s : Store α)
    (hperm : (s.locs.map Loc.iOrd).Perm
      ((List.range s.locs.length).map Int.ofNat)) :
    (∀ i, i < s.locs.length →
      ((sortByOrd s).locs[i]?).map Loc.iOrd = some (Int.ofNat i)) ∧
    sortByOrd (sortByOrd s) = sortByOrd s := by
  have hLperm := List.mergeSort_perm s.locs (fun a b : Loc α => a.iOrd ≤ b.iOrd)
  have hsorted := List.sorted_mergeSort ordLe_trans ordLe_total s.locs
  constructor
  · intro i hi
    have hmapsorted : ((s.locs.mergeSort (fun a b : Loc α => a.iOrd ≤ b.iOrd)).map
        Loc.iOrd).Pairwise (· ≤ ·) := by
      apply List.Pairwise.map Loc.iOrd ?_ hsorted
      intro a b hab
      simpa using hab
    have hrsorted : (((List.range s.locs.length).map Int.ofNat) :
        List Int).Pairwise (· ≤ ·) := by
      apply List.Pairwise.map Int.ofNat ?_ (List.pairwise_lt_range s.locs.length)
      intro a b hab
      exact Int.ofNat_le.mpr (by omega)
    have heq : (s.locs.mergeSort (fun a b : Loc α => a.iOrd ≤ b.iOrd)).map Loc.iOrd =
        (List.range s.locs.length).map Int.ofNat := by
      exact List.eq_of_perm_of_sorted ((hLperm.map Loc.iOrd).trans hperm)
        hmapsorted hrsorted
    have : ((sortByOrd s).locs.map Loc.iOrd)[i]? = some (Int.ofNat i) := by
      unfold sortByOrd
      rw [heq, List.getElem?_map, List.getElem?_range hi]
      rfl
    rw [List.getElem?_map] at this
    exact this
  · unfold sortByOrd
    congr 1
    exact List.mergeSort_of_sorted hsorted

/-- Witness for C8: the completed five-location store. -/
theorem output_sequencer_witness :
    (exStoreDone.locs.map Loc.iOrd).Perm
      ((List.range exStoreDone.locs.length).map Int.ofNat) ∧
    ((∀ i, i < exStoreDone.locs.length →
      ((sortByOrd exStoreDone).locs[i]?).map Loc.iOrd = some (Int.ofNat i)) ∧
    sortByOrd (sortByOrd exStoreDone) = sortByOrd exStoreDone) :=
  ⟨by decide, output_sequencer exStoreDone (by decide)⟩

/- ====================== claims C6, C7 and C10 ====================== -/

/-- C6 (the claim describes the intended check; the code divides by the
record count): for every record size `R ≥ 2`, a file of `R + 1` bytes is
not a multiple of the record size, yet the size check accepts it
(`lcnCnt = 1` and `(R+1) % 1 = 0`), so the run does NOT fail with the
format error. -/
theorem size_check_accepts_non_multiple (recSize : Nat) (h : 2 ≤ recSize) :
    sizeCheckRejects recSize (recSize + 1) = false ∧ (recSize + 1) % recSize ≠ 0 := by
  constructor
  · unfold sizeCheckRejects sizeCheckDivisor recordCount
    have h1 : (recSize + 1) / recSize = 1 := Nat.div_eq_of_lt_le (by omega) (by omega)
    rw [h1, Nat.mod_one]
    rfl
  · have hm : (recSize + 1) % recSize = 1 := by
      rw [Nat.add_mod_left]
      exact Nat.mod_eq_of_lt (by omega)
    omega

/-- Witness for C6: record size 32 (any fixed `nemoPtUs8` size works),
file size 33. -/
theorem size_check_accepts_non_multiple_witness :
    2 ≤ 32 ∧ (sizeCheckRejects 32 (32 + 1) = false ∧ (32 + 1) % 32 ≠ 0) :=
  ⟨by decide, size_check_accepts_non_multiple 32 (by decide)⟩

/-- Counterexample to C7 as stated: with window argument 4 (below
`MIN_WIN = 16`) the run does terminate with the configuration error, but
only AFTER the input file has been opened and the output file created —
both open events precede the error in `main`'s prelude. -/
theorem prelude_order_cex :
    MainEvent.openInputFile ∈ preludeEvents 4 ∧
    MainEvent.createOutputFile ∈ preludeEvents 4 ∧
    MainEvent.configError ∈ preludeEvents 4 := by decide

/-- C7 (amended): for `w` outside `[16, 32000]` the run terminates with a
ConfigurationError, but only after opening the input file and creating
(truncating) the output file; for `w` inside the bounds the run proceeds
with `halfWidth = w / 2` after the same two opens. -/
theorem prelude_order_amended (w : Int) :
    (w < MIN_WIN ∨ w > MAX_WIN →
      preludeEvents w = [MainEvent.openInputFile, MainEvent.createOutputFile,
        MainEvent.configError]) ∧
    (MIN_WIN ≤ w → w ≤ MAX_WIN →
      preludeEvents w = [MainEvent.openInputFile, MainEvent.createOutputFile,
        MainEvent.setHalfWidth (w.toNat / 2)]) := by
  constructor
  · intro h
    unfold preludeEvents
    rw [if_pos h]
    rfl
  · intro h1 h2
    unfold preludeEvents
    rw [if_neg (by omega)]
    rfl

/-- Witness for C7 (amended): out-of-bounds `w = 4` and in-bounds
`w = 1000` (`halfWidth = 500`). -/
theorem prelude_order_amended_witness :
    ((4 : Int) < MIN_WIN ∨ (4 : Int) > MAX_WIN) ∧
    preludeEvents 4 = [MainEvent.openInputFile, MainEvent.createOutputFile,
      MainEvent.configError] ∧
    preludeEvents 1000 = [MainEvent.openInputFile, MainEvent.createOutputFile,
      MainEvent.setHalfWidth 500] :=
  ⟨by decide, (prelude_order_amended 4).1 (by decide),
    (prelude_order_amended 1000).2 (by decide) (by decide)⟩

/-- C10: for every non-empty file shorter than one record, the computed
record count is 0 and the divisor of the size-validation modulo is that
record count — zero, and in particular not the record size — so the check
`inFileSize % lcnCnt` divides by zero instead of reporting a format
error. -/
theorem size_check_divides_by_zero (recSize fileSize : Nat)
    (h1 : 1 ≤ fileSize) (h2 : fileSize < recSize) :
    recordCount recSize fileSize = 0 ∧
    sizeCheckDivisor recSize fileSize = 0 ∧
    sizeCheckDivisor recSize fileSize ≠ recSize := by
  have hc : recordCount recSize fileSize = 0 := Nat.div_eq_of_lt h2
  have hd : sizeCheckDivisor recSize fileSize = 0 := hc
  refine ⟨hc, hd, ?_⟩
  rw [hd]
  omega

/-- Witness for C10: record size 32, file size 5. -/
theorem size_check_divides_by_zero_witness :
    1 ≤ 5 ∧ 5 < 32 ∧
    (recordCount 32 5 = 0 ∧ sizeCheckDivisor 32 5 = 0 ∧
      sizeCheckDivisor 32 5 ≠ 32) :=
  ⟨by decide, by decide, size_check_divides_by_zero 32 5 (by decide) (by decide)⟩

end NearNext
